import Mathlib

/-!
Verification development for the petroflow batch engine
(`src/well_logs/core/well_batch.py` and `src/well_logs/core/core_images.py`).

The Python code is shallowly embedded: batches become structures of lists,
per-item dispatch results become a tagged sum, mutation becomes explicit
state passing, and raised exceptions become explicit error values returned
alongside the (possibly partially mutated) state.
-/

namespace WellLogs

/-- One per-item result captured by the dispatcher.  In the source a result
slot holds either the returned value, a `SkipWellException` instance, or any
other exception captured by `inbatch_parallel`. -/
inductive DResult (α ε : Type) where
  | success : α → DResult α ε
  | skipWell : DResult α ε
  | failed : ε → DResult α ε
deriving DecidableEq, Repr

variable {α ε K W V : Type}

/-- Embeds Python `isinstance(res, SkipWellException)`. -/
def DResult.isSkip : DResult α ε → Bool
  | .skipWell => true
  | _ => false

/-- Embeds the per-result test of batchflow `any_action_failed`: whether the
captured result is a non-skip exception. -/
def DResult.isFailed : DResult α ε → Bool
  | .failed _ => true
  | _ => false

/-- Whether the per-item call returned normally. -/
def DResult.isSuccess : DResult α ε → Bool
  | .success _ => true
  | _ => false

/-- The returned value of a successful per-item call, if any. -/
def DResult.value? : DResult α ε → Option α
  | .success a => some a
  | _ => none

/-- The captured hard error of a failed per-item call, if any (embeds the
per-result selection done by batchflow `get_errors`). -/
def DResult.error? : DResult α ε → Option ε
  | .failed e => some e
  | _ => none

/-- State of a `WellBatch`: its index (`self.index`, whose keys are
`self.indices`) and its single component `self.wells`.  `W` is the type of a
well slot. -/
structure WBatch (K W : Type) where
  index : List K
  wells : List W
deriving DecidableEq, Repr

/-- The exception raised by `WellBatch._filter_assemble`: either
`SkipBatchException`, or the `RuntimeError` raised after the aggregated
errors of the kept results were reported. -/
inductive AssembleErr (ε : Type) where
  | skipBatch : AssembleErr ε
  | runtimeError : List ε → AssembleErr ε
deriving DecidableEq, Repr

/-- Embeds `WellBatch._filter_assemble` (src/well_logs/core/well_batch.py,
lines 93-105).  The returned pair is the batch state after the call together
with the exception raised, if any; both `raise` statements occur before the
assignments to `self.index` and `self.wells`, so on either error the state
is the pre-call state.  `skip_mask` selects the `SkipWellException` results;
`sum(skip_mask) == len(self)` compares against the index length; the kept
results are then checked by `any_action_failed`, and only afterwards the
index is replaced by the subset of non-skipped keys and `self.wells` by the
kept results. -/
def filterAssembleRun (b : WBatch K W) (results : List (DResult W ε)) :
    WBatch K W × Option (AssembleErr ε) :=
  if (results.filter DResult.isSkip).length = b.index.length then
    (b, some .skipBatch)
  else
    let kept := results.filter (fun r => ! r.isSkip)
    if kept.any DResult.isFailed then
      (b, some (.runtimeError (kept.filterMap DResult.error?)))
    else
      ({ index := ((b.index.zip results).filter (fun p => ! p.2.isSkip)).map Prod.fst,
         wells := kept.filterMap DResult.value? }, none)

/-- Reference formulation of "the subset of keys whose result was not
skipped, in their original relative order", used to state the filtering
claim independently of the zip/filter/map inside `filterAssembleRun`. -/
def dropSkipped : List K → List (DResult W ε) → List K
  | [], _ => []
  | _, [] => []
  | k :: ks, r :: rs =>
    if r.isSkip then dropSkipped ks rs else k :: dropSkipped ks rs

end WellLogs

namespace WellLogs

variable {α ε K W V : Type}

@[simp] theorem DResult.isSkip_success (a : α) :
    (DResult.success a : DResult α ε).isSkip = false := rfl

@[simp] theorem DResult.isSkip_skipWell :
    (DResult.skipWell : DResult α ε).isSkip = true := rfl

@[simp] theorem DResult.isSkip_failed (e : ε) :
    (DResult.failed e : DResult α ε).isSkip = false := rfl

@[simp] theorem DResult.isFailed_success (a : α) :
    (DResult.success a : DResult α ε).isFailed = false := rfl

@[simp] theorem DResult.isFailed_skipWell :
    (DResult.skipWell : DResult α ε).isFailed = false := rfl

@[simp] theorem DResult.isFailed_failed (e : ε) :
    (DResult.failed e : DResult α ε).isFailed = true := rfl

@[simp] theorem DResult.isSuccess_success (a : α) :
    (DResult.success a : DResult α ε).isSuccess = true := rfl

@[simp] theorem DResult.isSuccess_skipWell :
    (DResult.skipWell : DResult α ε).isSuccess = false := rfl

@[simp] theorem DResult.isSuccess_failed (e : ε) :
    (DResult.failed e : DResult α ε).isSuccess = false := rfl

@[simp] theorem DResult.value?_success (a : α) :
    (DResult.success a : DResult α ε).value? = some a := rfl

@[simp] theorem DResult.value?_skipWell :
    (DResult.skipWell : DResult α ε).value? = none := rfl

@[simp] theorem DResult.value?_failed (e : ε) :
    (DResult.failed e : DResult α ε).value? = none := rfl

@[simp] theorem DResult.error?_success (a : α) :
    (DResult.success a : DResult α ε).error? = none := rfl

@[simp] theorem DResult.error?_skipWell :
    (DResult.skipWell : DResult α ε).error? = none := rfl

@[simp] theorem DResult.error?_failed (e : ε) :
    (DResult.failed e : DResult α ε).error? = some e := rfl

theorem length_filter_lt_of_exists_not {p : α → Bool} {l : List α}
    (h : ∃ x ∈ l, p x = false) : (l.filter p).length < l.length := by
  induction l with
  | nil => simp at h
  | cons a t ih =>
    rcases h with ⟨x, hx, hpx⟩
    rcases List.mem_cons.mp hx with rfl | hxt
    · simp only [List.filter_cons, hpx]
      exact Nat.lt_succ_of_le (List.length_filter_le _ _)
    · by_cases hpa : p a
      · simpa [List.filter_cons, hpa] using ih ⟨x, hxt, hpx⟩
      · simp only [List.filter_cons, Bool.not_eq_true] at *
        simp only [hpa]
        exact Nat.lt_succ_of_lt (ih ⟨x, hxt, hpx⟩)

theorem zip_filter_eq_dropSkipped (ks : List K) (rs : List (DResult W ε))
    (hlen : rs.length = ks.length) :
    ((ks.zip rs).filter (fun p => ! p.2.isSkip)).map Prod.fst = dropSkipped ks rs := by
  induction ks generalizing rs with
  | nil => simp [dropSkipped]
  | cons k ks ih =>
    cases rs with
    | nil => simp at hlen
    | cons r rs =>
      simp only [List.length_cons, Nat.succ.injEq] at hlen
      by_cases hs : r.isSkip
      · simp [dropSkipped, List.zip_cons_cons, List.filter_cons, hs, ih rs hlen]
      · simp [dropSkipped, List.zip_cons_cons, List.filter_cons, hs, ih rs hlen]

theorem filter_not_skip_filterMap_value (rs : List (DResult W ε))
    (hnf : ∀ r ∈ rs, r.isFailed = false) :
    (rs.filter (fun r => ! r.isSkip)).filterMap DResult.value? =
      rs.filterMap DResult.value? := by
  induction rs with
  | nil => rfl
  | cons r rs ih =>
    have hr : r.isFailed = false := hnf r (List.mem_cons_self r rs)
    have hrs : ∀ x ∈ rs, x.isFailed = false := fun x hx => hnf x (List.mem_cons_of_mem r hx)
    cases r with
    | success a => simp [List.filter_cons, List.filterMap_cons, ih hrs]
    | skipWell => simp [List.filter_cons, List.filterMap_cons, ih hrs]
    | failed e => simp at hr

theorem dropSkipped_length (ks : List K) (rs : List (DResult W ε))
    (hlen : rs.length = ks.length) (hnf : ∀ r ∈ rs, r.isFailed = false) :
    (dropSkipped ks rs).length = (rs.filterMap DResult.value?).length := by
  induction ks generalizing rs with
  | nil =>
    cases rs with
    | nil => rfl
    | cons r rs => simp at hlen
  | cons k ks ih =>
    cases rs with
    | nil => simp at hlen
    | cons r rs =>
      simp only [List.length_cons, Nat.succ.injEq] at hlen
      have hr : r.isFailed = false := hnf r (List.mem_cons_self r rs)
      have hrs : ∀ x ∈ rs, x.isFailed = false := fun x hx => hnf x (List.mem_cons_of_mem r hx)
      cases r with
      | success a =>
        simp [dropSkipped, List.filterMap_cons, ih rs hlen hrs]
      | skipWell =>
        simp [dropSkipped, List.filterMap_cons, ih rs hlen hrs]
      | failed e => simp at hr

/-- Claim C1: a hard failure among the non-skipped results makes
`_filter_assemble` raise the aggregated `RuntimeError` and leave the
batch's index and wells component exactly as they were before the call. -/
theorem filterAssemble_fatal_atomic (b : WBatch K W) (results : List (DResult W ε))
    (hlen : results.length = b.index.length)
    (hfail : ∃ r ∈ results, r.isFailed = true) :
    (filterAssembleRun b results).1 = b ∧
    ∃ errs, errs ≠ [] ∧
      (filterAssembleRun b results).2 = some (.runtimeError errs) := by
  rcases hfail with ⟨r, hr, hrf⟩
  have hrskip : r.isSkip = false := by
    cases r with
    | success a => rfl
    | skipWell => simp [DResult.isFailed] at hrf
    | failed e => rfl
  have hne : (results.filter DResult.isSkip).length ≠ b.index.length := by
    have := length_filter_lt_of_exists_not (p := DResult.isSkip) ⟨r, hr, hrskip⟩
    omega
  have hkept : r ∈ results.filter (fun r => ! r.isSkip) :=
    List.mem_filter.mpr ⟨hr, by simp [hrskip]⟩
  have hany : (results.filter (fun r => ! r.isSkip)).any DResult.isFailed = true :=
    List.any_eq_true.mpr ⟨r, hkept, hrf⟩
  have herr : r.error?.isSome := by
    cases r with
    | success a => simp [DResult.isFailed] at hrf
    | skipWell => simp [DResult.isFailed] at hrf
    | failed e => simp [DResult.error?]
  refine ⟨?_, ?_⟩
  · simp [filterAssembleRun, hne, hany]
  · refine ⟨(results.filter (fun r => ! r.isSkip)).filterMap DResult.error?, ?_, ?_⟩
    · have : ∃ x ∈ results.filter (fun r => ! r.isSkip), (DResult.error? x).isSome := ⟨r, hkept, herr⟩
      intro hnil
      rcases this with ⟨x, hx, hxs⟩
      have : x.error? = none := by
        by_contra hcon
        rcases Option.ne_none_iff_exists.mp hcon with ⟨e, he⟩
        have : e ∈ (results.filter (fun r => ! r.isSkip)).filterMap DResult.error? :=
          List.mem_filterMap.mpr ⟨x, hx, he.symm⟩
        simp [hnil] at this
      simp [this] at hxs
    · simp [filterAssembleRun, hne, hany]

/-- Witness for C1 at a concrete batch and result list. -/
theorem filterAssemble_fatal_atomic_witness :
    (filterAssembleRun (⟨[10, 20], [5, 6]⟩ : WBatch Nat Nat)
        ([DResult.success 1, DResult.failed 7] : List (DResult Nat Nat))).1 =
      ⟨[10, 20], [5, 6]⟩ ∧
    ∃ errs, errs ≠ [] ∧
      (filterAssembleRun (⟨[10, 20], [5, 6]⟩ : WBatch Nat Nat)
        ([DResult.success 1, DResult.failed 7] : List (DResult Nat Nat))).2 =
        some (.runtimeError errs) :=
  filterAssemble_fatal_atomic ⟨[10, 20], [5, 6]⟩ [DResult.success 1, DResult.failed 7]
    (by decide) ⟨DResult.failed 7, by decide, by decide⟩

/-- Claim C2: when every dispatch result signalled Skip, `_filter_assemble`
raises `SkipBatchException` — a control condition distinct from the hard
`RuntimeError` — and the batch state is left untouched rather than becoming
a zero-length batch treated as a success. -/
theorem filterAssemble_all_skip (b : WBatch K W) (results : List (DResult W ε))
    (hlen : results.length = b.index.length)
    (hall : ∀ r ∈ results, r = DResult.skipWell) :
    filterAssembleRun b results = (b, some .skipBatch) := by
  have hfilter : results.filter DResult.isSkip = results :=
    List.filter_eq_self.mpr (fun r hr => by rw [hall r hr]; rfl)
  simp [filterAssembleRun, hfilter, hlen]

/-- Witness for C2 at a concrete batch and all-skip result list. -/
theorem filterAssemble_all_skip_witness :
    filterAssembleRun (⟨[10, 20], [5, 6]⟩ : WBatch Nat Nat)
        ([DResult.skipWell, DResult.skipWell] : List (DResult Nat Nat)) =
      (⟨[10, 20], [5, 6]⟩, some .skipBatch) :=
  filterAssemble_all_skip ⟨[10, 20], [5, 6]⟩
    [DResult.skipWell, DResult.skipWell] (by decide) (by decide)

/-- Claim C3: with at least one non-skipped result and no hard failure,
`_filter_assemble` raises nothing, replaces the index by the non-skipped
keys in their original relative order, sets the wells component to exactly
the kept results in order, and restores the length invariant between the
wells component and the contracted index. -/
theorem filterAssemble_filtering (b : WBatch K W) (results : List (DResult W ε))
    (hlen : results.length = b.index.length)
    (hnf : ∀ r ∈ results, r.isFailed = false)
    (hsome : ∃ r ∈ results, r.isSkip = false) :
    (filterAssembleRun b results).2 = none ∧
    (filterAssembleRun b results).1.index = dropSkipped b.index results ∧
    (filterAssembleRun b results).1.wells = results.filterMap DResult.value? ∧
    (filterAssembleRun b results).1.wells.length =
      (filterAssembleRun b results).1.index.length := by
  have hne : (results.filter DResult.isSkip).length ≠ b.index.length := by
    have := length_filter_lt_of_exists_not (p := DResult.isSkip) hsome
    omega
  have hany : (results.filter (fun r => ! r.isSkip)).any DResult.isFailed = false := by
    rw [Bool.eq_false_iff]
    intro hcon
    rcases List.any_eq_true.mp hcon with ⟨r, hr, hrf⟩
    have := hnf r (List.mem_of_mem_filter hr)
    rw [this] at hrf
    exact Bool.false_ne_true hrf
  refine ⟨?_, ?_, ?_, ?_⟩
  · simp [filterAssembleRun, hne, hany]
  · simp [filterAssembleRun, hne, hany, zip_filter_eq_dropSkipped b.index results hlen]
  · simp [filterAssembleRun, hne, hany, filter_not_skip_filterMap_value results hnf]
  · simp [filterAssembleRun, hne, hany, zip_filter_eq_dropSkipped b.index results hlen,
      filter_not_skip_filterMap_value results hnf, dropSkipped_length b.index results hlen hnf]

/-- Witness for C3: items `(A ↦ skip, B ↦ 5, C ↦ 7)` yield index `[B, C]`
and wells `[5, 7]`. -/
theorem filterAssemble_filtering_witness :
    (filterAssembleRun (⟨[1, 2, 3], [0, 0, 0]⟩ : WBatch Nat Nat)
        ([DResult.skipWell, DResult.success 5,
          DResult.success 7] : List (DResult Nat Nat))).2 = none ∧
    (filterAssembleRun (⟨[1, 2, 3], [0, 0, 0]⟩ : WBatch Nat Nat)
        ([DResult.skipWell, DResult.success 5,
          DResult.success 7] : List (DResult Nat Nat))).1.index =
      dropSkipped [1, 2, 3]
        ([DResult.skipWell, DResult.success 5,
          DResult.success 7] : List (DResult Nat Nat)) ∧
    (filterAssembleRun (⟨[1, 2, 3], [0, 0, 0]⟩ : WBatch Nat Nat)
        ([DResult.skipWell, DResult.success 5,
          DResult.success 7] : List (DResult Nat Nat))).1.wells =
      ([DResult.skipWell, DResult.success 5,
        DResult.success 7] : List (DResult Nat Nat)).filterMap DResult.value? ∧
    (filterAssembleRun (⟨[1, 2, 3], [0, 0, 0]⟩ : WBatch Nat Nat)
        ([DResult.skipWell, DResult.success 5,
          DResult.success 7] : List (DResult Nat Nat))).1.wells.length =
      (filterAssembleRun (⟨[1, 2, 3], [0, 0, 0]⟩ : WBatch Nat Nat)
        ([DResult.skipWell, DResult.success 5,
          DResult.success 7] : List (DResult Nat Nat))).1.index.length :=
  filterAssemble_filtering ⟨[1, 2, 3], [0, 0, 0]⟩
    [DResult.skipWell, DResult.success 5, DResult.success 7]
    (by decide) (by decide) ⟨DResult.success 5, by decide, by decide⟩

end WellLogs

namespace WellLogs

variable {α ε K W V A R : Type}

/-- Embeds `self.get_pos(None, "wells", index)`: the position of a key in
the batch index. -/
def getPos [DecidableEq K] (l : List K) (k : K) : Nat := l.indexOf k

/-- The worker instance stored for a key: `self.wells[pos]` after
`pos = self.get_pos(None, "wells", index)`. -/
def workerAt [DecidableEq K] (b : WBatch K W) (k : K) : Option W :=
  b.wells[getPos b.index k]?

/-- Embeds the `delegator` closure built by
`WellDelegatingMeta._make_parallel_action` (src/well_logs/core/well_batch.py,
lines 30-36): resolve the worker stored for the item's key in the wells
component and invoke the same-named `Well` operation on it with the
forwarded arguments. -/
def mkDelegator [DecidableEq K] (op : W → A → R) :
    WBatch K W → K → A → Option R :=
  fun b k a => (workerAt b k).map (fun w => op w a)

/-- Embeds the binding loop of `WellDelegatingMeta.__new__`
(src/well_logs/core/well_batch.py, lines 21-28): for every name in the
abstract-method capability set not already present in the class namespace, a
delegator is synthesized; names the namespace defines are kept as-is. -/
def bindMethods [DecidableEq K] (wellOps : String → W → A → R)
    (abstractMethods : List String)
    (ns : String → Option (WBatch K W → K → A → Option R)) :
    String → Option (WBatch K W → K → A → Option R) :=
  fun m =>
    match ns m with
    | some f => some f
    | none => if m ∈ abstractMethods then some (mkDelegator (wellOps m)) else none

/-- Claim C4: for every capability-set name the batch type does not itself
define, the metaclass synthesizes a batch operation that resolves the worker
stored for the item's key and invokes the same-named worker operation,
producing the worker's own result; for a name the batch type defines, the
override is used as-is and no wrapper is synthesized. -/
theorem bindMethods_delegation [DecidableEq K]
    (wellOps : String → W → A → R) (abstractMethods : List String)
    (ns : String → Option (WBatch K W → K → A → Option R)) (m : String) :
    (ns m = none → m ∈ abstractMethods →
      bindMethods wellOps abstractMethods ns m = some (mkDelegator (wellOps m)) ∧
      ∀ (b : WBatch K W) (k : K) (a : A) (w : W), workerAt b k = some w →
        mkDelegator (wellOps m) b k a = some (wellOps m w a)) ∧
    (∀ f, ns m = some f → bindMethods wellOps abstractMethods ns m = some f) := by
  constructor
  · intro hnone hmem
    refine ⟨by simp [bindMethods, hnone, hmem], ?_⟩
    intro b k a w hw
    simp [mkDelegator, hw]
  · intro f hf
    simp [bindMethods, hf]

/-- Witness for C4: name `score` is in the capability set and undefined on
the batch type, so it binds to a delegator; on a batch whose sole worker is
`42` the delegated call returns the worker operation's result `42 + 5`. -/
theorem bindMethods_delegation_witness :
    bindMethods (K := Nat) (W := Nat) (fun _ w a => w + a) ["score"]
        (fun _ => none) "score" =
      some (mkDelegator (fun (w a : Nat) => w + a)) ∧
    mkDelegator (K := Nat) (fun (w a : Nat) => w + a) ⟨[3], [42]⟩ 3 5 = some 47 := by
  have h := bindMethods_delegation (K := Nat) (W := Nat) (A := Nat) (R := Nat)
    (fun _ w a => w + a) ["score"] (fun _ => none) "score"
  exact ⟨(h.1 rfl (by simp)).1, (h.1 rfl (by simp)).2 ⟨[3], [42]⟩ 3 5 42 (by decide)⟩

/-- The in-place writes performed by the per-item bodies of
`WellBatch._init_wells`: each item whose `Well(path, **kwargs)` construction
returns normally stores the new worker at its own index position
(`self.wells[i] = well` after `i = self.get_pos(None, "wells", index)`);
items whose construction raises write nothing. -/
def initWellsWrites [DecidableEq K] (b : WBatch K (Option W))
    (construct : K → DResult W ε) : List (Option W) :=
  b.index.foldl (fun ws k =>
    match construct k with
    | .success w => ws.set (getPos b.index k) (some w)
    | _ => ws) b.wells

/-- Embeds `WellBatch._init_wells` (src/well_logs/core/well_batch.py, lines
80-91) together with its dispatch.  `construct` is the outcome of
`Well(path, **kwargs)` for each key; the `Well` class lives in
`well_logs/core/well.py`, which is not under `src/`, so its outcome is an
arbitrary tagged per-item result.  The decorator on `_init_wells` is
`inbatch_parallel(init="indices", target="threads")` with no `post`
argument, so no `_filter_assemble` runs; the post-dispatch check is
Modelled from the spec: batchflow's `inbatch_parallel` default collection
(not under `src/`) inspects the captured results and, per spec section 7,
hard failures surface to the caller while Skip is resolved only inside the
filtering assembler — with no filtering assembler configured, any captured
exception (Skip included) surfaces.  The `Bool` is that raised-failure
flag; in every case the index is left as it was. -/
def initWells [DecidableEq K] (b : WBatch K (Option W))
    (construct : K → DResult W ε) : WBatch K (Option W) × Bool :=
  (⟨b.index, initWellsWrites b construct⟩,
    (b.index.map (fun k => construct k)).any (fun r => ! r.isSuccess))

/-- Concrete construction outcome used to refute claim C5: key `1` has a
malformed source and signals Skip, key `0` constructs normally. -/
def cexConstruct : Nat → DResult Nat Nat :=
  fun k => if k = 1 then .skipWell else .success 10

theorem initWellsWrites_length [DecidableEq K] (full : List K)
    (construct : K → DResult W ε) (ks : List K) (ws : List (Option W)) :
    (ks.foldl (fun ws k =>
      match construct k with
      | .success w => ws.set (getPos full k) (some w)
      | _ => ws) ws).length = ws.length := by
  induction ks generalizing ws with
  | nil => rfl
  | cons k ks ih =>
    rw [List.foldl_cons, ih]
    cases construct k <;> simp

/-- Counterexample to claim C5: items `(0 ↦ success, 1 ↦ skip)` do not make
the batch shrink to index `[0]` — worker initialization is not dispatched
through the filtering assembler. -/
theorem initWells_no_shrink_cex :
    ¬ ((initWells (⟨[0, 1], [none, none]⟩ : WBatch Nat (Option Nat))
        cexConstruct).1.index = [0]) := by
  decide

/-- Amended claim C5: worker initialization is a plain parallel dispatch
without the filtering assembler — the index is never contracted (the batch
does not shrink), the wells component keeps its length, and any item whose
construction does not return normally (Skip included) makes the dispatch
surface a failure to the caller instead of being dropped. -/
theorem initWells_plain_dispatch [DecidableEq K] (b : WBatch K (Option W))
    (construct : K → DResult W ε) :
    (initWells b construct).1.index = b.index ∧
    (initWells b construct).1.wells.length = b.wells.length ∧
    ((initWells b construct).2 = true ↔
      ∃ k ∈ b.index, (construct k).isSuccess = false) := by
  refine ⟨rfl, ?_, ?_⟩
  · exact initWellsWrites_length b.index construct b.index b.wells
  · simp only [initWells, List.any_eq_true, List.mem_map]
    constructor
    · rintro ⟨r, ⟨k, hk, rfl⟩, hr⟩
      exact ⟨k, hk, by simpa using hr⟩
    · rintro ⟨k, hk, hks⟩
      exact ⟨construct k, ⟨k, hk, rfl⟩, by simp [hks]⟩

end WellLogs

namespace WellLogs

variable {α ε K W V A R : Type}

/-- Modelled from the spec: one completion event of the Dispatcher
(batchflow `inbatch_parallel`, not under `src/`).  A task that was launched
for input position `pos` finishes and deposits its result in the slot of
its own input position, independent of when sibling tasks finish. -/
def deposit (keys : List K) (op : K → α) (acc : List (Option α)) (pos : Nat) :
    List (Option α) :=
  match keys[pos]? with
  | some k => acc.set pos (some (op k))
  | none => acc

/-- Modelled from the spec: the Dispatcher's collection phase (batchflow
`inbatch_parallel`, not under `src/`).  Spec section 4.1: concurrent
per-item tasks complete in an arbitrary order, and the output list is
ordered by input position.  `order` is the completion order of the task
positions; every completed task deposits into its own slot, and the slots
are read out positionally at the end. -/
def dispatchCollect (keys : List K) (op : K → α) (order : List Nat) :
    List (Option α) :=
  order.foldl (deposit keys op) (List.replicate keys.length none)

theorem deposit_length (keys : List K) (op : K → α) (acc : List (Option α))
    (pos : Nat) : (deposit keys op acc pos).length = acc.length := by
  unfold deposit
  cases keys[pos]? <;> simp

theorem dispatch_fold_lookup (keys : List K) (op : K → α) (order : List Nat)
    (acc : List (Option α)) (hacc : acc.length = keys.length)
    (hbound : ∀ j ∈ order, j < keys.length) (i : Nat) (h : i < keys.length) :
    (order.foldl (deposit keys op) acc)[i]? =
      if i ∈ order then some (some (op keys[i])) else acc[i]? := by
  induction order generalizing acc with
  | nil => simp
  | cons p t ih =>
    have hp : p < keys.length := hbound p (List.mem_cons_self p t)
    have hstep : (deposit keys op acc p).length = acc.length := deposit_length keys op acc p
    rw [List.foldl_cons,
      ih (deposit keys op acc p) (by rw [hstep, hacc])
        (fun j hj => hbound j (List.mem_cons_of_mem p hj))]
    by_cases hit : i ∈ t
    · simp [hit, List.mem_cons]
    · by_cases hip : i = p
      · subst hip
        have : (deposit keys op acc i)[i]? = some (some (op keys[i])) := by
          unfold deposit
          rw [List.getElem?_eq_getElem hp]
          exact List.getElem?_set_eq_of_lt _ (by rw [hacc]; exact h)
        simp [hit, this, List.mem_cons]
      · have : (deposit keys op acc p)[i]? = acc[i]? := by
          unfold deposit
          cases keys[p]? with
          | none => rfl
          | some k => exact List.getElem?_set_ne (fun hc => hip hc.symm)
        simp [hit, hip, this, List.mem_cons]

/-- Claim C6: for a dispatch over the batch's keys, the i-th entry of the
collected result list is the result of the operation on the i-th key,
regardless of the order in which the concurrently running per-item tasks
complete, as long as every launched task eventually completes. -/
theorem dispatch_ordered (keys : List K) (op : K → α) (order : List Nat)
    (hcover : ∀ i < keys.length, i ∈ order)
    (hbound : ∀ j ∈ order, j < keys.length) :
    ∀ i, (h : i < keys.length) →
      (dispatchCollect keys op order)[i]? = some (some (op keys[i])) := by
  intro i h
  rw [dispatchCollect, dispatch_fold_lookup keys op order _
    (List.length_replicate _ _) hbound i h]
  simp [hcover i h]

/-- Witness for C6: three items completing in the order `2, 0, 1` still
collect positionally, so slot `0` holds the operation applied to key `0`. -/
theorem dispatch_ordered_witness :
    (dispatchCollect [10, 11, 12] (fun k => k * 2) [2, 0, 1])[0]? =
      some (some 20) := by
  have h := dispatch_ordered [10, 11, 12] (fun k => k * 2) [2, 0, 1]
    (by decide) (by decide) 0 (by decide)
  simpa using h

/-- State of the batch seen by `WellBatch.get_crops`: the index, the wells
component (each well exposing, per attribute name, the list of that
attribute over `well.iter_level()` segments), and the batch variables
written through `setattr`. -/
structure CropBatch (K V : Type) where
  index : List K
  wells : List (String → List V)
  vars : String → Option (List (List V))

/-- The message of the `ValueError` raised by `WellBatch.get_crops` on
mismatched argument lengths. -/
def lenMismatchMsg (m n : Nat) : String :=
  "'src' and 'dst' must be of the same length but " ++ toString m ++ " and "
    ++ toString n ++ " were given"

/-- Embeds `WellBatch.get_crops` (src/well_logs/core/well_batch.py, lines
107-133): after normalizing `src`/`dst` to lists, a length mismatch raises
`ValueError` before the per-well loop; otherwise each destination batch
variable is set to the per-well crops of its source attribute. -/
def get_crops (b : CropBatch K V) (src dst : List String) :
    Except String (CropBatch K V) :=
  if src.length ≠ dst.length then
    .error (lenMismatchMsg src.length dst.length)
  else
    .ok ((src.zip dst).foldl (fun acc pr =>
      { acc with vars := fun nm =>
          if nm = pr.2 then some (acc.wells.map (fun w => w pr.1))
          else acc.vars nm }) b)

/-- Claim C7: calling `get_crops` with source and destination lists of
different lengths fails with the descriptive `ValueError` before any
per-item work, and never returns a (truncated) updated batch. -/
theorem get_crops_length_guard (b : CropBatch K V) (src dst : List String)
    (hlen : src.length ≠ dst.length) :
    get_crops b src dst = .error (lenMismatchMsg src.length dst.length) ∧
    ∀ b2, get_crops b src dst ≠ .ok b2 := by
  refine ⟨by simp [get_crops, hlen], ?_⟩
  intro b2
  simp [get_crops, hlen]

/-- Witness for C7 on a concrete batch with one source attribute and no
destination. -/
theorem get_crops_length_guard_witness :
    get_crops (⟨[], [], fun _ => none⟩ : CropBatch Nat Nat) ["depth"] [] =
      .error (lenMismatchMsg 1 0) ∧
    ∀ b2, get_crops (⟨[], [], fun _ => none⟩ : CropBatch Nat Nat) ["depth"] [] ≠
      .ok b2 :=
  get_crops_length_guard ⟨[], [], fun _ => none⟩ ["depth"] [] (by decide)

end WellLogs

namespace WellLogs

variable {α ε K W V A R : Type}

/-- Embeds `np.arange(0, stop, step)` as used in `CoreBatch.crop`: the
naturals `0, step, 2*step, ...` strictly below `stop` (empty when the
integer `stop` is non-positive). -/
def arange (stop : Int) (step : Nat) : List Nat :=
  (List.range ((stop.toNat + step - 1) / step)).map (fun k => k * step)

/-- Embeds Python `min(list)` on a non-empty list of lengths, as in
`image_length = min([img.shape[-2] for img in images])`. -/
def minList : List Nat → Nat
  | [] => 0
  | [x] => x
  | x :: xs => min x (minList xs)

/-- The crop offsets of `CoreBatch.crop`:
`pos = np.arange(0, image_length - length + 1, step)`. -/
def cropOffsets (imageLength len step : Nat) : List Nat :=
  arange ((imageLength : Int) - len + 1) step

/-- Embeds the state of the `slices` list after the offset loop of
`CoreBatch.crop` and `CoreBatch.random_crop`.  Both build it as
`[[slice(None)] * images[0].ndim] * n`, which replicates a reference to one
shared inner list, so each iteration of
`slices[j][-2] = slice(position, position + length)` overwrites the same
slot: after the loop every entry holds the slice of the LAST offset.  The
effective per-window offsets are therefore the last offset repeated once
per entry (and empty when there are no offsets). -/
def aliasedOffsets (pos : List Nat) : List Nat :=
  match pos.getLast? with
  | some o => List.replicate pos.length o
  | none => []

/-- Embeds `CoreBatch.crop` (src/well_logs/core/core_images.py, lines
277-301) on one item: each source image is modelled as the list of its
spatial rows along the cropping axis (`img.shape[-2]` is its length) and
the common image length is the minimum across the source components.
`np.arange` computes the strided offsets, but the `slices` list aliases one
shared inner list (`aliasedOffsets`), so every extracted window is
`img[last offset : last offset + length]`, repeated `len(pos)` times. -/
def crop (images : List (List V)) (len step : Nat) : List (List (List V)) :=
  let imageLength := minList (images.map List.length)
  let pos := cropOffsets imageLength len step
  images.map (fun img => (aliasedOffsets pos).map (fun o => (img.drop o).take len))

/-- Embeds `np.random.randint(0, image_length - length + 1, size=n_crops)`
from `CoreBatch.random_crop`: the j-th random offset for an arbitrary
randomness outcome `draws`, reduced into the half-open valid range. -/
def randomCropOffsets (imageLength len nCrops : Nat) (draws : Nat → Nat) :
    List Nat :=
  (List.range nCrops).map (fun j => draws j % (imageLength - len + 1))

/-- Embeds `CoreBatch.random_crop` (src/well_logs/core/core_images.py,
lines 251-275) on one item, with the randomness outcome passed in as
`draws`.  Its `slices` list has the same aliasing as in `CoreBatch.crop`
(`slices = [[slice(None)] * images[0].ndim] * n_crops`), so all `n_crops`
windows are extracted at the last drawn offset. -/
def random_crop (images : List (List V)) (len nCrops : Nat)
    (draws : Nat → Nat) : List (List (List V)) :=
  let imageLength := minList (images.map List.length)
  let pos := randomCropOffsets imageLength len nCrops draws
  images.map (fun img => (aliasedOffsets pos).map (fun o => (img.drop o).take len))

theorem minList_le (l : List Nat) (x : Nat) (hx : x ∈ l) : minList l ≤ x := by
  induction l with
  | nil => simp at hx
  | cons a t ih =>
    cases t with
    | nil =>
      rcases List.mem_cons.mp hx with rfl | hxt
      · exact Nat.le_refl x
      · simp at hxt
    | cons b t2 =>
      rcases List.mem_cons.mp hx with rfl | hxt
      · exact min_le_left _ _
      · exact le_trans (min_le_right _ _) (ih hxt)

/-- Claim C8, code bug: for a failing input with source images of lengths
10 and 12, window length 4 and step 3, `np.arange` does compute the
intended strided offsets `[0, 3, 6]`, but because `slices` replicates one
shared inner list, `CoreBatch.crop` extracts every window at the last
offset 6 — three copies of `img[6:10]` per image — instead of the windows
at offsets 0, 3 and 6 that the claim (and the `step between crops`
docstring's intent) describes. -/
theorem crop_aliased_at_failing_input :
    cropOffsets (minList ([List.range 10, List.range 12].map List.length))
        4 3 = [0, 3, 6] ∧
    crop [List.range 10, List.range 12] 4 3 =
      [List.replicate 3 (((List.range 10).drop 6).take 4),
       List.replicate 3 (((List.range 12).drop 6).take 4)] ∧
    crop [List.range 10, List.range 12] 4 3 ≠
      [[0, 3, 6].map (fun o => ((List.range 10).drop o).take 4),
       [0, 3, 6].map (fun o => ((List.range 12).drop o).take 4)] := by
  refine ⟨by decide, by decide, by decide⟩

/-- Claim C9: whenever the window length `w` is at most the common image
length, every offset drawn by `CoreBatch.random_crop`, for every randomness
outcome, is between 0 and `common length - w`, so each extracted window
lies entirely inside every source image. -/
theorem random_crop_offsets_safe (images : List (List V)) (w n : Nat)
    (draws : Nat → Nat) (hne : images ≠ [])
    (hw : w ≤ minList (images.map List.length)) :
    ∀ o ∈ randomCropOffsets (minList (images.map List.length)) w n draws,
      o ≤ minList (images.map List.length) - w ∧
      ∀ img ∈ images, o + w ≤ img.length := by
  intro o ho
  rcases List.mem_map.mp ho with ⟨j, hj, rfl⟩
  have hpos : 0 < minList (images.map List.length) - w + 1 := Nat.succ_pos _
  have hlt : draws j % (minList (images.map List.length) - w + 1) <
      minList (images.map List.length) - w + 1 := Nat.mod_lt _ hpos
  refine ⟨by omega, ?_⟩
  intro img himg
  have hmin : minList (images.map List.length) ≤ img.length :=
    minList_le _ _ (List.mem_map.mpr ⟨img, himg, rfl⟩)
  omega

/-- Witness for C9: one image of length 10, window 4, two draws; the drawn
offset 6 is within the valid range and its window fits in the image. -/
theorem random_crop_offsets_safe_witness :
    6 ∈ randomCropOffsets
        (minList ([List.replicate 10 (0 : Nat)].map List.length)) 4 2
        (fun j => j * 1000 + 7) ∧
    6 ≤ minList ([List.replicate 10 (0 : Nat)].map List.length) - 4 ∧
    6 + 4 ≤ (List.replicate 10 (0 : Nat)).length := by
  have h := random_crop_offsets_safe [List.replicate 10 (0 : Nat)] 4 2
    (fun j => j * 1000 + 7) (by decide) (by decide) 6 (by decide)
  exact ⟨by decide, h.1, h.2 _ (by decide)⟩

end WellLogs

namespace WellLogs

variable {α ε K W V A R : Type}

/-- State of a `CoreBatch` with its default components: the index and the
`dl`, `uv` and `labels` components (labels are the 0/1 defect marks). -/
structure CoreB (K V : Type) where
  index : List K
  dl : List V
  uv : List V
  labels : List Nat

/-- Embeds one iteration of the swap loop of `CoreBatch.shuffle_images`
(src/well_logs/core/core_images.py, lines 220-227) for the default
src/dst components: for a pair `(i, j)` of distinct keys, the `uv` values
at the two index positions are read and exchanged and both labels are set
to 1; a pair with `i == j` does nothing. -/
def swapStep [DecidableEq K] [Inhabited V] (b : CoreB K V) (pr : K × K) :
    CoreB K V :=
  if pr.1 ≠ pr.2 then
    let p := getPos b.index pr.1
    let q := getPos b.index pr.2
    let uv1 := b.uv.getD p default
    let uv2 := b.uv.getD q default
    { b with uv := (b.uv.set p uv2).set q uv1,
             labels := (b.labels.set p 1).set q 1 }
  else b

/-- Embeds `CoreBatch.shuffle_images` (src/well_logs/core/core_images.py,
lines 201-228) with default `src`/`dst` (for which the initial component
reassignment loop is the identity).  `nPerm` is
`int(np.ceil(len(self.indices) * proba / 2))` and `shuffled` the keys drawn
by `np.random.choice(self.indices, n_permutations, replace=False)`; both
are taken as parameters of the randomness outcome.  The swap loop runs over
`zip(self.indices[:n_permutations], shuffled_indices)`. -/
def shuffle_images [DecidableEq K] [Inhabited V] (b : CoreB K V) (nPerm : Nat)
    (shuffled : List K) : CoreB K V :=
  ((b.index.take nPerm).zip shuffled).foldl swapStep b

/-- The index positions written by the swap loop: for every pair of
distinct keys, the positions of both keys. -/
def touchedPos [DecidableEq K] (index : List K) : List (K × K) → List Nat
  | [] => []
  | pr :: rest =>
    if pr.1 ≠ pr.2 then
      getPos index pr.1 :: getPos index pr.2 :: touchedPos index rest
    else touchedPos index rest

theorem swapStep_index [DecidableEq K] [Inhabited V] (b : CoreB K V)
    (pr : K × K) : (swapStep b pr).index = b.index := by
  unfold swapStep
  split <;> rfl

theorem swapStep_dl [DecidableEq K] [Inhabited V] (b : CoreB K V)
    (pr : K × K) : (swapStep b pr).dl = b.dl := by
  unfold swapStep
  split <;> rfl

theorem swapStep_labels_length [DecidableEq K] [Inhabited V] (b : CoreB K V)
    (pr : K × K) : (swapStep b pr).labels.length = b.labels.length := by
  unfold swapStep
  split <;> simp

theorem shuffleFold_index [DecidableEq K] [Inhabited V]
    (pairs : List (K × K)) (b : CoreB K V) :
    (pairs.foldl swapStep b).index = b.index := by
  induction pairs generalizing b with
  | nil => rfl
  | cons pr rest ih => rw [List.foldl_cons, ih, swapStep_index]

theorem shuffleFold_dl [DecidableEq K] [Inhabited V]
    (pairs : List (K × K)) (b : CoreB K V) :
    (pairs.foldl swapStep b).dl = b.dl := by
  induction pairs generalizing b with
  | nil => rfl
  | cons pr rest ih => rw [List.foldl_cons, ih, swapStep_dl]

theorem shuffleFold_untouched [DecidableEq K] [Inhabited V]
    (pairs : List (K × K)) (b : CoreB K V) (p : Nat)
    (hp : p ∉ touchedPos b.index pairs) :
    (pairs.foldl swapStep b).uv[p]? = b.uv[p]? ∧
    (pairs.foldl swapStep b).labels[p]? = b.labels[p]? := by
  induction pairs generalizing b with
  | nil => exact ⟨rfl, rfl⟩
  | cons pr rest ih =>
    rw [List.foldl_cons]
    by_cases hne : pr.1 ≠ pr.2
    · have hp3 : p ≠ getPos b.index pr.1 ∧ p ≠ getPos b.index pr.2 ∧
          p ∉ touchedPos b.index rest := by
        rw [touchedPos, if_pos hne] at hp
        simp only [List.mem_cons, not_or] at hp
        exact ⟨hp.1, hp.2.1, hp.2.2⟩
      have hrest := ih (swapStep b pr)
        (by rw [swapStep_index]; exact hp3.2.2)
      have huv : (swapStep b pr).uv[p]? = b.uv[p]? := by
        unfold swapStep
        rw [if_pos hne]
        exact (List.getElem?_set_ne (fun hc => hp3.2.1 hc.symm)).trans
          (List.getElem?_set_ne (fun hc => hp3.1 hc.symm))
      have hlab : (swapStep b pr).labels[p]? = b.labels[p]? := by
        unfold swapStep
        rw [if_pos hne]
        exact (List.getElem?_set_ne (fun hc => hp3.2.1 hc.symm)).trans
          (List.getElem?_set_ne (fun hc => hp3.1 hc.symm))
      exact ⟨hrest.1.trans huv, hrest.2.trans hlab⟩
    · have hstep : swapStep b pr = b := by
        unfold swapStep
        rw [if_neg hne]
      rw [hstep]
      exact ih b (by rw [touchedPos, if_neg hne] at hp; exact hp)

theorem shuffleFold_touched_label [DecidableEq K] [Inhabited V]
    (pairs : List (K × K)) (b : CoreB K V)
    (hvalid : ∀ pr ∈ pairs, pr.1 ≠ pr.2 →
      getPos b.index pr.1 < b.labels.length ∧
      getPos b.index pr.2 < b.labels.length)
    (p : Nat) (hp : p ∈ touchedPos b.index pairs) :
    (pairs.foldl swapStep b).labels[p]? = some 1 := by
  induction pairs generalizing b with
  | nil => simp [touchedPos] at hp
  | cons pr rest ih =>
    rw [List.foldl_cons]
    by_cases hne : pr.1 ≠ pr.2
    · have hvalid2 : ∀ pr2 ∈ rest, pr2.1 ≠ pr2.2 →
          getPos (swapStep b pr).index pr2.1 < (swapStep b pr).labels.length ∧
          getPos (swapStep b pr).index pr2.2 < (swapStep b pr).labels.length := by
        intro pr2 h2 hne2
        rw [swapStep_index, swapStep_labels_length]
        exact hvalid pr2 (List.mem_cons_of_mem pr h2) hne2
      by_cases hrest : p ∈ touchedPos b.index rest
      · exact ih (swapStep b pr) hvalid2 (by rw [swapStep_index]; exact hrest)
      · have hp12 : p = getPos b.index pr.1 ∨ p = getPos b.index pr.2 := by
          rw [touchedPos, if_pos hne] at hp
          simp only [List.mem_cons] at hp
          rcases hp with h | h | h
          · exact Or.inl h
          · exact Or.inr h
          · exact absurd h hrest
        have huntouched := shuffleFold_untouched rest (swapStep b pr) p
          (by rw [swapStep_index]; exact hrest)
        rw [huntouched.2]
        have hv := hvalid pr (List.mem_cons_self pr rest) hne
        unfold swapStep
        rw [if_pos hne]
        by_cases hpq : p = getPos b.index pr.2
        · rw [hpq]
          exact List.getElem?_set_eq_of_lt _ (by rw [List.length_set]; exact hv.2)
        · have hpp : p = getPos b.index pr.1 := by tauto
          rw [List.getElem?_set_ne (fun hc => hpq hc.symm), hpp]
          exact List.getElem?_set_eq_of_lt _ hv.1
    · have hstep : swapStep b pr = b := by
        unfold swapStep
        rw [if_neg hne]
      rw [hstep]
      refine ih b (fun pr2 h2 hne2 => hvalid pr2 (List.mem_cons_of_mem pr h2) hne2) ?_
      rw [touchedPos, if_neg hne] at hp
      exact hp

/-- Claim C10: with default source and destination components and for every
randomness outcome, `CoreBatch.shuffle_images` changes only the `uv` values
and labels at the positions of the swapped pairs — each such label is
forced to 1 — while the `dl` component at every position and the index are
left unchanged. -/
theorem shuffle_images_frame [DecidableEq K] [Inhabited V] (b : CoreB K V)
    (nPerm : Nat) (shuffled : List K)
    (hmem : ∀ k ∈ shuffled, k ∈ b.index)
    (hlab : b.labels.length = b.index.length) :
    (shuffle_images b nPerm shuffled).index = b.index ∧
    (shuffle_images b nPerm shuffled).dl = b.dl ∧
    (∀ p, p ∉ touchedPos b.index ((b.index.take nPerm).zip shuffled) →
      (shuffle_images b nPerm shuffled).uv[p]? = b.uv[p]? ∧
      (shuffle_images b nPerm shuffled).labels[p]? = b.labels[p]?) ∧
    (∀ p ∈ touchedPos b.index ((b.index.take nPerm).zip shuffled),
      (shuffle_images b nPerm shuffled).labels[p]? = some 1) := by
  refine ⟨shuffleFold_index _ b, shuffleFold_dl _ b,
    fun p hp => shuffleFold_untouched _ b p hp, ?_⟩
  intro p hp
  refine shuffleFold_touched_label _ b ?_ p hp
  intro pr hpr hne
  have h1 : pr.1 ∈ b.index := List.take_subset nPerm b.index (List.of_mem_zip hpr).1
  have h2 : pr.2 ∈ b.index := hmem pr.2 (List.of_mem_zip hpr).2
  rw [hlab]
  exact ⟨List.indexOf_lt_length.mpr h1, List.indexOf_lt_length.mpr h2⟩

/-- Witness for C10: a three-item batch pairing keys 0 and 2 keeps `dl`
and the untouched middle position intact while forcing the swapped labels
to 1. -/
theorem shuffle_images_frame_witness :
    (shuffle_images (⟨[0, 1, 2], [10, 11, 12], [20, 21, 22],
        [0, 0, 0]⟩ : CoreB Nat Nat) 1 [2]).dl = [10, 11, 12] ∧
    (shuffle_images (⟨[0, 1, 2], [10, 11, 12], [20, 21, 22],
        [0, 0, 0]⟩ : CoreB Nat Nat) 1 [2]).uv[1]? = some 21 ∧
    (shuffle_images (⟨[0, 1, 2], [10, 11, 12], [20, 21, 22],
        [0, 0, 0]⟩ : CoreB Nat Nat) 1 [2]).labels[2]? = some 1 := by
  have h := shuffle_images_frame
    (⟨[0, 1, 2], [10, 11, 12], [20, 21, 22], [0, 0, 0]⟩ : CoreB Nat Nat) 1 [2]
    (by decide) (by decide)
  refine ⟨h.2.1, ?_, h.2.2.2 2 (by decide)⟩
  have hu := (h.2.2.1 1 (by decide)).1
  simpa using hu

end WellLogs
